import Mathlib

/-
Verification of the per-bin interaction analysis pipeline (class maskMatrix
in analyseInteraction.py): mask construction, window extraction, aligned
pairing, directional probability decomposition, weighted mean distance and
the dataset distance profile.

Modelling conventions.  Floating point values are idealised as rationals
(the arithmetic used by the code is sums, differences, division and
comparison, all exact on the inputs considered); the four-way outcome of
the log2 computation (NaN, plus infinity, minus infinity, finite) is an
inductive type whose finite constructor records the exact ratio
upSum / downSum, the stored float being the base-2 logarithm of that
ratio.  A numpy masked array is a list of cells carrying a value and a
mask bit (mask = true means the cell is invalid).  An N by N matrix is a
list of rows.
-/

namespace AnalyseInteraction

/-- One cell of a masked array: a value together with its mask bit
(true means masked / invalid), mirroring numpy.ma semantics. -/
structure MCell where
  val : ℚ
  mask : Bool
deriving DecidableEq

/-- Default cell used for out-of-range reads: value 0, masked. -/
def mdef : MCell := ⟨0, true⟩

/-- Number of unmasked cells of a masked array, as ma.count. -/
def maCount (a : List MCell) : ℕ :=
  (a.filter (fun c => !c.mask)).length

/-- Sum of the unmasked values of a masked array, as the masked sum. -/
def maSum (a : List MCell) : ℚ :=
  ((a.filter (fun c => !c.mask)).map MCell.val).sum

/-- Mask bit of a masked array at position k (out of range reads as masked). -/
def maskAt (a : List MCell) (k : ℕ) : Bool :=
  (a.getD k mdef).mask

/-- Column sum of the raw matrix: probMatrix.sum(axis=0) at column j,
the sum over all rows of the entry in column j. -/
def colSum (probM : List (List ℚ)) (j : ℕ) : ℚ :=
  (probM.map (fun r => r.getD j 0)).sum

/-- Row sum of the raw matrix at row i (axis=1); not what the code uses,
kept to compare the two conventions. -/
def rowSum (probM : List (List ℚ)) (i : ℕ) : ℚ :=
  (probM.getD i []).sum

/-- lowValues = probMatrix.sum(axis=0) < 0.5, at index j: the low-signal
flag of bin j, computed from the column sum. -/
def lowValue (probM : List (List ℚ)) (j : ℕ) : Bool :=
  decide (colSum probM j < 1/2)

/-- Entry (i, j) of chrArray != chrArray[:,None]: the cross-chromosome
mask, true when the two bins lie on different chromosomes. -/
def crossChr (chrs : List String) (i j : ℕ) : Bool :=
  decide (chrs.getD i "" ≠ chrs.getD j "")

/-- The exclusion mask after the two assignments
maskMatrix[lowValues,:] = True and maskMatrix[:,lowValues] = True:
cell (i, j) is masked when the chromosomes differ, or row i is
low-signal, or column j is low-signal. -/
def buildMask (chrs : List String) (probM : List (List ℚ)) (i j : ℕ) : Bool :=
  (crossChr chrs i j || lowValue probM i) || lowValue probM j

/-- The group column: groups = chr.copy(); groups[lowValues] = np.nan.
The NaN written over low-signal bins is modelled as none, which is
distinct from every chromosome id some c. -/
def buildGroup (chrs : List String) (probM : List (List ℚ)) (i : ℕ) : Option String :=
  if lowValue probM i then none else some (chrs.getD i "")

/-- The shape validation of the constructor: numpy reports the loaded
rectangular matrix with shape (number of rows, length of a row), and the
code raises IOError when shape[0] differs from shape[1].  The list of
parsed bin labels is passed through unused: the constructor never
compares the matrix dimension with the bin count. -/
def initShapeCheck (_chrs : List String) (probM : List (List ℚ)) :
    Except String Unit :=
  if probM.length = (probM.headD []).length then Except.ok ()
  else Except.error "Matrix must be square"

/-- The masked probability matrix built by the constructor: raw values
with the exclusion mask attached cellwise. -/
def maskedProb (chrs : List String) (probM : List (List ℚ)) : List (List MCell) :=
  (List.range probM.length).map (fun i =>
    (List.range probM.length).map (fun j =>
      ⟨(probM.getD i []).getD j 0, buildMask chrs probM i j⟩))

/-- Pairwise absolute difference of bin centres, entry (i, j) of
np.abs(centreArray - centreArray[:,None]). -/
def distEntry (centres : List ℚ) (i j : ℕ) : ℚ :=
  |centres.getD i 0 - centres.getD j 0|

/-- The masked distance matrix built by the constructor: centre
differences with the same exclusion mask. -/
def maskedDist (chrs : List String) (probM : List (List ℚ)) (centres : List ℚ) :
    List (List MCell) :=
  (List.range probM.length).map (fun i =>
    (List.range probM.length).map (fun j =>
      ⟨distEntry centres i j, buildMask chrs probM i j⟩))

/-- upDown: the distance-paired upstream and downstream windows of a row.
array[index-1::-1] is the first index cells in reverse order (guarded to
the empty array at index 0, where the slice would wrap), and
array[index+1:] is the tail after the index. -/
def upDown (array : List MCell) (index : ℕ) : List MCell × List MCell :=
  let up := if index = 0 then [] else (array.take index).reverse
  (up, array.drop (index + 1))

/-- The upstream window of row at index. -/
def upWin (row : List MCell) (i : ℕ) : List MCell := (upDown row i).1

/-- The downstream window of row at index. -/
def downWin (row : List MCell) (i : ℕ) : List MCell := (upDown row i).2

/-- unmaskedPair: indices of positions unmasked in both arrays.  The
bound is first clipped to min(len(a1), len(a2), maxl); an empty result is
returned when the clipped bound is 0; otherwise the positions k below the
bound where neither mask bit is set, in ascending order, as
np.where(logical_or(a1.mask[:maxl], a2.mask[:maxl]) == False). -/
def unmaskedPair (a1 a2 : List MCell) (maxl : ℕ) : List ℕ :=
  let m := min (min a1.length a2.length) maxl
  if m = 0 then []
  else (List.range m).filter (fun k => (maskAt a1 k || maskAt a2 k) = false)

/-- The aligned index list used by binDirection for row i. -/
def alignedIdx (row : List MCell) (i maxl : ℕ) : List ℕ :=
  unmaskedPair (upWin row i) (downWin row i) maxl

/-- Sum of the values of a at the listed positions, as a[indices].sum()
for positions that are in range and unmasked. -/
def sumAt (a : List MCell) (idx : List ℕ) : ℚ :=
  (idx.map (fun k => (a.getD k mdef).val)).sum

/-- upSum of row i: sum of the upstream window at the aligned indices. -/
def upSumOf (row : List MCell) (i maxl : ℕ) : ℚ :=
  sumAt (upWin row i) (alignedIdx row i maxl)

/-- downSum of row i: sum of the downstream window at the aligned indices. -/
def downSumOf (row : List MCell) (i maxl : ℕ) : ℚ :=
  sumAt (downWin row i) (alignedIdx row i maxl)

/-- Outcome of the log2 computation.  The code stores np.nan, np.inf,
-np.inf, or the float np.log2(upSum/downSum); the finite constructor
records the exact ratio upSum / downSum, whose base-2 logarithm
(Real.logb 2) is the stored finite value. -/
inductive Log2Val where
  | nan : Log2Val
  | posInf : Log2Val
  | negInf : Log2Val
  | finite : ℚ → Log2Val
deriving DecidableEq

/-- The branch structure choosing the log2 outcome from the aligned
index list and the two aligned sums, exactly as in binDirection. -/
def log2Branch (indices : List ℕ) (upSum downSum : ℚ) : Log2Val :=
  if indices.length > 0 then
    if upSum = 0 then
      if downSum = 0 then Log2Val.nan else Log2Val.negInf
    else if downSum = 0 then Log2Val.posInf
    else Log2Val.finite (upSum / downSum)
  else Log2Val.nan

/-- The five values binDirection stores for one processed row. -/
structure DirResult where
  selfProb : ℚ
  interProb : ℚ
  upProb : ℚ
  downProb : ℚ
  log2 : Log2Val
deriving DecidableEq

/-- One iteration of the binDirection loop on a row of the masked
probability matrix.  A fully masked row (ma.count == 0) is skipped and
stores nothing (none).  Otherwise: selfProb reads the diagonal cell
(unmasked for every processed row of a constructed matrix, because a
low-signal bin has its whole row masked); upProb and downProb are the
masked sums of the windows, guarded to 0 for windows with no unmasked
cell; interProb = 1 - upProb - downProb - selfProb; and the log2 outcome
follows the branch structure on the aligned sums. -/
def binDirectionRow (row : List MCell) (rowNo maxl : ℕ) : Option DirResult :=
  if maCount row = 0 then none
  else
    let up := upWin row rowNo
    let down := downWin row rowNo
    let selfProb := (row.getD rowNo mdef).val
    let upProb := if maCount up = 0 then 0 else maSum up
    let downProb := if maCount down = 0 then 0 else maSum down
    let interProb := 1 - upProb - downProb - selfProb
    let indices := unmaskedPair up down maxl
    let log2 := log2Branch indices (sumAt up indices) (sumAt down indices)
    some ⟨selfProb, interProb, upProb, downProb, log2⟩

/-- A pair of cells of the zipped distance and weight rows is used by
ma.average when neither operand is masked. -/
def validPair (p : MCell × MCell) : Bool :=
  !(p.1.mask || p.2.mask)

/-- Numerator of ma.average(d, weights=w): sum of value * weight over
the valid positions. -/
def maWeighted (d w : List MCell) : ℚ :=
  (((d.zip w).filter validPair).map (fun p => p.1.val * p.2.val)).sum

/-- Denominator of ma.average(d, weights=w): sum of the weights over the
valid positions. -/
def maWeightSum (d w : List MCell) : ℚ :=
  (((d.zip w).filter validPair).map (fun p => p.2.val)).sum

/-- ma.average(d, weights=w): weighted mean over the positions unmasked
in both arrays (in the pipeline the two share one mask). -/
def maAverage (d w : List MCell) : ℚ :=
  maWeighted d w / maWeightSum d w

/-- The cast np.uint32 applied to a nonnegative float: truncation toward
zero (the floor, for nonnegative arguments) reduced modulo 2^32. -/
def npUint32 (x : ℚ) : ℕ :=
  (⌊x⌋ % (2 ^ 32 : ℤ)).toNat

/-- One iteration of the binDistance loop: a fully masked distance row is
skipped (none); otherwise the probability-weighted mean distance is
computed by ma.average and stored through np.uint32. -/
def binDistanceRow (distRow probRow : List MCell) : Option ℕ :=
  if maCount distRow = 0 then none
  else some (npUint32 (maAverage distRow probRow))

/-- Boolean-mask extraction m[~m.mask]: the unmasked values of the
matrix, flattened row-major. -/
def compress (m : List (List MCell)) : List ℚ :=
  ((m.flatten).filter (fun c => !c.mask)).map MCell.val

/-- combinedDistance: np.array([dist, prob]).T, the list of
(distance, probability) pairs over the unmasked positions. -/
def combinedDistance (distM probM : List (List MCell)) : List (ℚ × ℚ) :=
  (compress distM).zip (compress probM)

/-- Number of unmasked cells (false entries of the mask) of a matrix. -/
def countUnmasked (m : List (List MCell)) : ℕ :=
  ((m.flatten).filter (fun c => !c.mask)).length

/-- Two matrices carry the same mask pattern (shape included). -/
def masksEq (distM probM : List (List MCell)) : Prop :=
  distM.map (fun r => r.map MCell.mask) = probM.map (fun r => r.map MCell.mask)

instance (distM probM : List (List MCell)) : Decidable (masksEq distM probM) := by
  unfold masksEq
  infer_instance

/-- Modelled from the spec (section 4.7, the round-trip property): the
profile collects, row-major and without deduplication, the pair of the
distance value and the probability value at every position where the
mask is false. -/
def distProfilePairs (distM probM : List (List MCell)) : List (ℚ × ℚ) :=
  ((distM.zip probM).map (fun rp =>
    ((rp.1.zip rp.2).filter (fun q => !q.1.mask)).map
      (fun q => (q.1.val, q.2.val)))).flatten

/-- Value of a matrix at position (i, j), out of range reading 0. -/
def valAt (m : List (List MCell)) (i j : ℕ) : ℚ :=
  ((m.getD i []).getD j mdef).val

/-- Mask of a matrix at position (i, j), out of range reading masked. -/
def maskAt2 (m : List (List MCell)) (i j : ℕ) : Bool :=
  ((m.getD i []).getD j mdef).mask

/-- Row i of the constructed masked probability matrix, spelt out. -/
theorem maskedProb_row (chrs : List String) (probM : List (List ℚ)) (i : ℕ)
    (hi : i < probM.length) :
    (maskedProb chrs probM).getD i [] =
      (List.range probM.length).map
        (fun j => ⟨(probM.getD i []).getD j 0, buildMask chrs probM i j⟩) := by
  unfold maskedProb
  rw [List.getD_eq_getElem?_getD, List.getElem?_map, List.getElem?_range hi]
  rfl

/-- In a constructed matrix, every row that binDirection processes (one
with an unmasked cell) has an unmasked diagonal cell: a low-signal bin
has its entire row masked and is skipped, and a cell on the diagonal of
a processed row is masked by no other condition.  This justifies reading
selfProb as the raw diagonal value: row[rowNo].sum() never meets a
masked scalar on a processed row. -/
theorem maskedProb_diag_unmasked (chrs : List String) (probM : List (List ℚ)) (i : ℕ)
    (hi : i < probM.length)
    (hrow : maCount ((maskedProb chrs probM).getD i []) ≠ 0) :
    buildMask chrs probM i i = false := by
  by_cases hl : lowValue probM i = true
  · exfalso
    apply hrow
    have hall : ∀ j, buildMask chrs probM i j = true := by
      intro j
      simp [buildMask, hl]
    rw [maskedProb_row chrs probM i hi]
    unfold maCount
    rw [List.filter_map]
    have hnone : ∀ j ∈ List.range probM.length,
        ¬ ((fun c : MCell => !c.mask) ∘
          (fun j => ⟨(probM.getD i []).getD j 0, buildMask chrs probM i j⟩)) j = true := by
      intro j _
      simp [Function.comp, hall j]
    rw [List.filter_eq_nil_iff.mpr hnone]
    rfl
  · have hl2 : lowValue probM i = false := by
      simpa using hl
    simp [buildMask, crossChr, hl2]

/-- Every cell of the upstream window comes from the source row. -/
theorem upWin_subset (row : List MCell) (i : ℕ) : ∀ c ∈ upWin row i, c ∈ row := by
  intro c hc
  unfold upWin upDown at hc
  by_cases h : i = 0
  · simp [h] at hc
  · simp only [h, if_neg, ite_false] at hc
    rw [List.mem_reverse] at hc
    exact List.take_subset i row hc

/-- Every cell of the downstream window comes from the source row. -/
theorem downWin_subset (row : List MCell) (i : ℕ) : ∀ c ∈ downWin row i, c ∈ row := by
  intro c hc
  unfold downWin upDown at hc
  exact List.drop_subset (i + 1) row hc

/-- A sum of values at listed positions is nonnegative when all values
of the array are nonnegative (out-of-range reads contribute 0). -/
theorem sumAt_nonneg (a : List MCell) (idx : List ℕ) (h : ∀ c ∈ a, 0 ≤ c.val) :
    0 ≤ sumAt a idx := by
  unfold sumAt
  apply List.sum_nonneg
  intro x hx
  simp only [List.mem_map] at hx
  obtain ⟨k, hk, rfl⟩ := hx
  by_cases hk2 : k < a.length
  · rw [List.getD_eq_getElem?_getD, List.getElem?_eq_getElem hk2]
    simp only [Option.getD_some]
    exact h _ (List.getElem_mem hk2)
  · rw [List.getD_eq_getElem?_getD, List.getElem?_eq_none (by omega)]
    norm_num [mdef]

/-- Claim C1: a cell of the exclusion mask is true whenever the two bins
lie on different chromosomes, or either endpoint bin is low-signal; a
low-signal bin has its whole row and whole column masked; a low-signal
bin gets the excluded group value none, distinct from every chromosome
id, and every other bin keeps its chromosome as its group. -/
theorem C1_mask_and_groups (chrs : List String) (probM : List (List ℚ)) (i j : ℕ) :
    (chrs.getD i "" ≠ chrs.getD j "" → buildMask chrs probM i j = true) ∧
    (lowValue probM i = true →
      buildMask chrs probM i j = true ∧ buildMask chrs probM j i = true) ∧
    (lowValue probM j = true → buildMask chrs probM i j = true) ∧
    (lowValue probM i = true →
      buildGroup chrs probM i = none ∧ ∀ c : String, buildGroup chrs probM i ≠ some c) ∧
    (lowValue probM i = false → buildGroup chrs probM i = some (chrs.getD i "")) := by
  unfold buildMask buildGroup crossChr
  refine ⟨?_, ?_, ?_, ?_, ?_⟩ <;> intro h
  · simp only [Bool.or_eq_true, decide_eq_true_eq]
    exact Or.inl (Or.inl h)
  · simp [h]
  · simp [h]
  · simp [h]
  · simp [h]

/-- Witness for C1 on a concrete matrix: bins on chromosomes chr1, chr2
with column sums 1 and 0, so bin 1 is low-signal. -/
theorem C1_mask_and_groups_witness :
    buildMask ["chr1", "chr2"] [[1, 0], [0, 0]] 0 1 = true ∧
    buildMask ["chr1", "chr2"] [[1, 0], [0, 0]] 1 0 = true ∧
    buildGroup ["chr1", "chr2"] [[1, 0], [0, 0]] 1 = none ∧
    buildGroup ["chr1", "chr2"] [[1, 0], [0, 0]] 0 = some "chr1" :=
  ⟨(C1_mask_and_groups ["chr1", "chr2"] [[1, 0], [0, 0]] 0 1).1 (by decide),
   ((C1_mask_and_groups ["chr1", "chr2"] [[1, 0], [0, 0]] 1 0).2.1
      (by norm_num [lowValue, colSum])).1,
   ((C1_mask_and_groups ["chr1", "chr2"] [[1, 0], [0, 0]] 1 0).2.2.2.1
      (by norm_num [lowValue, colSum])).1,
   (C1_mask_and_groups ["chr1", "chr2"] [[1, 0], [0, 0]] 0 1).2.2.2.2
      (by norm_num [lowValue, colSum])⟩

/-- Claim C6 counterexample: on the non-symmetric matrix [[0,1],[0,1]]
the row sum of row 0 is 1, not below one half, yet bin 0 is classified
low-signal, because the code sums axis 0 (column sums). -/
theorem C6_row_sum_counterexample :
    lowValue [[0, 1], [0, 1]] 0 = true ∧ ¬ rowSum [[0, 1], [0, 1]] 0 < 1/2 := by
  constructor
  · norm_num [lowValue, colSum]
  · norm_num [rowSum]

/-- Claim C6 as amended: bin i is classified low-signal (and hence
excluded, with its full row and column masked) exactly when the column
sum of the raw matrix at i (the axis-0 sum) is below one half. -/
theorem C6_low_signal_is_column_sum (chrs : List String) (probM : List (List ℚ)) (i : ℕ) :
    (lowValue probM i = true ↔ colSum probM i < 1/2) ∧
    (buildGroup chrs probM i = none ↔ colSum probM i < 1/2) ∧
    (colSum probM i < 1/2 →
      ∀ j, buildMask chrs probM i j = true ∧ buildMask chrs probM j i = true) := by
  have hl : lowValue probM i = true ↔ colSum probM i < 1/2 := by
    simp [lowValue]
  refine ⟨hl, ?_, ?_⟩
  · rw [← hl]
    unfold buildGroup
    by_cases h : lowValue probM i <;> simp [h]
  · intro h j
    have h2 : lowValue probM i = true := hl.mpr h
    unfold buildMask
    simp [h2]

/-- Witness for the amended C6 at a concrete input: column sum 0 at
index 0 makes bin 0 excluded and its row and column masked. -/
theorem C6_low_signal_is_column_sum_witness :
    buildGroup ["a", "b"] [[0, 1], [0, 1]] 0 = none ∧
    buildMask ["a", "b"] [[0, 1], [0, 1]] 0 1 = true ∧
    buildMask ["a", "b"] [[0, 1], [0, 1]] 1 0 = true :=
  ⟨(C6_low_signal_is_column_sum ["a", "b"] [[0, 1], [0, 1]] 0).2.1.mpr (by norm_num [colSum]),
   ((C6_low_signal_is_column_sum ["a", "b"] [[0, 1], [0, 1]] 0).2.2
      (by norm_num [colSum]) 1).1,
   ((C6_low_signal_is_column_sum ["a", "b"] [[0, 1], [0, 1]] 0).2.2
      (by norm_num [colSum]) 1).2⟩

/-- Claim C7 counterexample: a square 2 by 2 matrix together with three
bin labels passes the constructor shape validation, although its
dimension differs from the bin count, so construction does not fail with
the squareness error in that case. -/
theorem C7_dimension_counterexample :
    initShapeCheck ["c1", "c2", "c3"] [[1, 0], [0, 1]] = Except.ok () ∧
    ([[1, 0], [0, 1]] : List (List ℚ)).length ≠ (["c1", "c2", "c3"] : List String).length :=
  ⟨rfl, by decide⟩

/-- Claim C7 as amended: the constructor validation fails exactly when
the matrix is not square (row count differs from the length of the first
row); the matrix dimension is never compared with the bin count. -/
theorem C7_shape_check_square_only (chrs : List String) (probM : List (List ℚ)) :
    (initShapeCheck chrs probM = Except.ok () ↔ probM.length = (probM.headD []).length) ∧
    (probM.length ≠ (probM.headD []).length →
      initShapeCheck chrs probM = Except.error "Matrix must be square") := by
  unfold initShapeCheck
  by_cases h : probM.length = (probM.headD []).length <;> simp [h]

/-- Witness for the amended C7: a 1 by 2 matrix is rejected. -/
theorem C7_shape_check_square_only_witness :
    initShapeCheck ["x"] [[1, 0]] = Except.error "Matrix must be square" :=
  (C7_shape_check_square_only ["x"] [[1, 0]]).2 (by decide)

/-- Claim C4: for every processed row (one where binDirection stores a
result), the four stored probabilities sum to one, because interProb is
computed as 1 - upProb - downProb - selfProb, with no clamping. -/
theorem C4_probability_decomposition (row : List MCell) (rowNo maxl : ℕ) (r : DirResult)
    (h : binDirectionRow row rowNo maxl = some r) :
    r.selfProb + r.upProb + r.downProb + r.interProb = 1 ∧
    r.interProb = 1 - r.upProb - r.downProb - r.selfProb := by
  unfold binDirectionRow at h
  by_cases hc : maCount row = 0
  · simp [hc] at h
  · rw [if_neg hc] at h
    simp only [Option.some.injEq] at h
    subst h
    constructor
    · ring
    · ring

/-- Witness for C4 on the concrete row [1 (unmasked)] at index 0. -/
theorem C4_probability_decomposition_witness :
    binDirectionRow [⟨1, false⟩] 0 10 = some ⟨1, 0, 0, 0, Log2Val.nan⟩ ∧
    ((⟨1, 0, 0, 0, Log2Val.nan⟩ : DirResult).selfProb +
      (⟨1, 0, 0, 0, Log2Val.nan⟩ : DirResult).upProb +
      (⟨1, 0, 0, 0, Log2Val.nan⟩ : DirResult).downProb +
      (⟨1, 0, 0, 0, Log2Val.nan⟩ : DirResult).interProb = 1) :=
  ⟨by norm_num [binDirectionRow, maCount, upWin, downWin, upDown, maSum, unmaskedPair,
      sumAt, log2Branch, mdef],
   (C4_probability_decomposition [⟨1, false⟩] 0 10 ⟨1, 0, 0, 0, Log2Val.nan⟩
      (by norm_num [binDirectionRow, maCount, upWin, downWin, upDown, maSum, unmaskedPair,
        sumAt, log2Branch, mdef])).1⟩

/-- Claim C8: a fully masked row is skipped by both per-row analyzers
(nothing is stored, the derived fields stay unset), and every row with
at least one unmasked cell yields a defined stored value; the per-row
computations are total functions into defined outcomes. -/
theorem C8_fully_masked_rows_skipped (row distRow probRow : List MCell) (rowNo maxl : ℕ) :
    (maCount row = 0 → binDirectionRow row rowNo maxl = none) ∧
    (maCount row ≠ 0 → (binDirectionRow row rowNo maxl).isSome = true) ∧
    (maCount distRow = 0 → binDistanceRow distRow probRow = none) ∧
    (maCount distRow ≠ 0 → (binDistanceRow distRow probRow).isSome = true) := by
  refine ⟨?_, ?_, ?_, ?_⟩ <;> intro h <;> simp [binDirectionRow, binDistanceRow, h]

/-- Witness for C8: a fully masked one-cell row is skipped, an unmasked
one-cell row produces a stored value, for both analyzers. -/
theorem C8_fully_masked_rows_skipped_witness :
    binDirectionRow [⟨1, true⟩] 0 10 = none ∧
    (binDirectionRow [⟨1, false⟩] 0 10).isSome = true ∧
    binDistanceRow [⟨1, true⟩] [⟨1, true⟩] = none ∧
    (binDistanceRow [⟨2, false⟩] [⟨1, false⟩]).isSome = true :=
  ⟨(C8_fully_masked_rows_skipped [⟨1, true⟩] [⟨1, true⟩] [⟨1, true⟩] 0 10).1 (by decide),
   (C8_fully_masked_rows_skipped [⟨1, false⟩] [⟨1, true⟩] [⟨1, true⟩] 0 10).2.1 (by decide),
   (C8_fully_masked_rows_skipped [⟨1, false⟩] [⟨1, true⟩] [⟨1, true⟩] 0 10).2.2.1 (by decide),
   (C8_fully_masked_rows_skipped [⟨1, false⟩] [⟨2, false⟩] [⟨1, false⟩] 0 10).2.2.2 (by decide)⟩

/-- Claim C3: unmaskedPair returns exactly the ascending (nearest-first)
list of the indices k with k below the bound, below both window lengths,
and unmasked in both windows; it is empty when either window is empty or
the clipped bound is 0, and never contains an index at or above the
bound or at or above either length. -/
theorem C3_unmaskedPair_exact (a1 a2 : List MCell) (maxl : ℕ) :
    List.Pairwise (fun x y => x < y) (unmaskedPair a1 a2 maxl) ∧
    (∀ k, k ∈ unmaskedPair a1 a2 maxl ↔
      k < maxl ∧ k < a1.length ∧ k < a2.length ∧
      maskAt a1 k = false ∧ maskAt a2 k = false) ∧
    (a1 = [] ∨ a2 = [] ∨ min (min a1.length a2.length) maxl = 0 →
      unmaskedPair a1 a2 maxl = []) := by
  by_cases h : min (min a1.length a2.length) maxl = 0
  · have he : unmaskedPair a1 a2 maxl = [] := by
      unfold unmaskedPair
      simp [h]
    refine ⟨by simp [he], ?_, fun _ => he⟩
    intro k
    simp only [he, List.not_mem_nil, false_iff]
    rintro ⟨h1, h2, h3, _, _⟩
    omega
  · have he : unmaskedPair a1 a2 maxl =
        (List.range (min (min a1.length a2.length) maxl)).filter
          (fun k => decide ((maskAt a1 k || maskAt a2 k) = false)) := by
      simp only [unmaskedPair]
      rw [if_neg h]
    refine ⟨?_, ?_, ?_⟩
    · rw [he]
      exact List.Pairwise.sublist (List.filter_sublist _) (List.pairwise_lt_range _)
    · intro k
      rw [he]
      simp only [List.mem_filter, List.mem_range, decide_eq_true_eq,
        Bool.or_eq_false_iff]
      constructor
      · rintro ⟨hk, hm1, hm2⟩
        exact ⟨by omega, by omega, by omega, hm1, hm2⟩
      · rintro ⟨h1, h2, h3, hm1, hm2⟩
        exact ⟨by omega, hm1, hm2⟩
    · intro hcase
      exfalso
      apply h
      rcases hcase with rfl | hr
      · simp
      · rcases hr with rfl | h0
        · simp
        · exact h0

/-- Witness for C3 on concrete windows: up = [masked, unmasked],
down = [unmasked, unmasked, unmasked], bound 10; only index 1 survives. -/
theorem C3_unmaskedPair_exact_witness :
    (1 ∈ unmaskedPair [⟨1, true⟩, ⟨2, false⟩]
        [⟨3, false⟩, ⟨4, false⟩, ⟨5, false⟩] 10 ↔
      1 < 10 ∧ 1 < 2 ∧ 1 < 3 ∧
      maskAt [⟨1, true⟩, ⟨2, false⟩] 1 = false ∧
      maskAt [⟨3, false⟩, ⟨4, false⟩, ⟨5, false⟩] 1 = false) ∧
    (0 ∈ unmaskedPair [⟨1, true⟩, ⟨2, false⟩]
        [⟨3, false⟩, ⟨4, false⟩, ⟨5, false⟩] 10 ↔
      0 < 10 ∧ 0 < 2 ∧ 0 < 3 ∧
      maskAt [⟨1, true⟩, ⟨2, false⟩] 0 = false ∧
      maskAt [⟨3, false⟩, ⟨4, false⟩, ⟨5, false⟩] 0 = false) ∧
    unmaskedPair [] [⟨3, false⟩] 10 = [] :=
  ⟨(C3_unmaskedPair_exact [⟨1, true⟩, ⟨2, false⟩]
      [⟨3, false⟩, ⟨4, false⟩, ⟨5, false⟩] 10).2.1 1,
   (C3_unmaskedPair_exact [⟨1, true⟩, ⟨2, false⟩]
      [⟨3, false⟩, ⟨4, false⟩, ⟨5, false⟩] 10).2.1 0,
   (C3_unmaskedPair_exact [] [⟨3, false⟩] 10).2.2 (Or.inl rfl)⟩

/-- Claim C5: the upstream window of a row at index i holds the cells at
indices i-1 down to 0 in that reverse (nearest-first) order, empty at
i = 0, and the downstream window holds the cells at indices i+1 up to
N-1 in forward order, empty at i = N-1; each cell, mask bit included, is
taken unchanged from the row. -/
theorem C5_window_extraction (row : List MCell) (i : ℕ) (h : i < row.length) :
    (upWin row i).length = i ∧
    (∀ k, k < i → (upWin row i).getD k mdef = row.getD (i - 1 - k) mdef) ∧
    (downWin row i).length = row.length - (i + 1) ∧
    (∀ k, k < row.length - (i + 1) →
      (downWin row i).getD k mdef = row.getD (i + 1 + k) mdef) ∧
    (i = 0 → upWin row i = []) ∧
    (i = row.length - 1 → downWin row i = []) := by
  refine ⟨?_, ?_, ?_, ?_, ?_, ?_⟩
  · unfold upWin upDown
    by_cases h0 : i = 0
    · simp [h0]
    · simp only [h0, ite_false]
      rw [List.length_reverse, List.length_take]
      omega
  · intro k hk
    have h0 : ¬ i = 0 := by omega
    unfold upWin upDown
    simp only [h0, ite_false]
    have hlt : k < ((row.take i).reverse).length := by
      rw [List.length_reverse, List.length_take]
      omega
    have hlt2 : i - 1 - k < (row.take i).length := by
      rw [List.length_take]
      omega
    rw [List.getD_eq_getElem?_getD, List.getD_eq_getElem?_getD,
      List.getElem?_reverse (by rwa [List.length_reverse] at hlt),
      List.getElem?_take_of_lt (by rw [List.length_take]; omega),
      List.length_take]
    have harith : min i row.length - 1 - k = i - 1 - k := by omega
    rw [harith]
  · unfold downWin upDown
    simp
  · intro k hk
    unfold downWin upDown
    rw [List.getD_eq_getElem?_getD, List.getD_eq_getElem?_getD,
      List.getElem?_drop]
  · intro h0
    unfold upWin upDown
    simp [h0]
  · intro h0
    unfold downWin upDown
    have : row.length - (i + 1) = 0 := by omega
    apply List.eq_nil_of_length_eq_zero
    rw [List.length_drop]
    exact this

/-- Witness for C5 on a concrete three-cell row at index 1: the upstream
window is the first cell, the downstream window is the last cell, with
mask bits carried over. -/
theorem C5_window_extraction_witness :
    (upWin [⟨1, false⟩, ⟨2, true⟩, ⟨3, false⟩] 1).length = 1 ∧
    (upWin [⟨1, false⟩, ⟨2, true⟩, ⟨3, false⟩] 1).getD 0 mdef =
      ([⟨1, false⟩, ⟨2, true⟩, ⟨3, false⟩] : List MCell).getD 0 mdef ∧
    (downWin [⟨1, false⟩, ⟨2, true⟩, ⟨3, false⟩] 1).length = 1 ∧
    (downWin [⟨1, false⟩, ⟨2, true⟩, ⟨3, false⟩] 1).getD 0 mdef =
      ([⟨1, false⟩, ⟨2, true⟩, ⟨3, false⟩] : List MCell).getD 2 mdef :=
  ⟨(C5_window_extraction [⟨1, false⟩, ⟨2, true⟩, ⟨3, false⟩] 1 (by decide)).1,
   (C5_window_extraction [⟨1, false⟩, ⟨2, true⟩, ⟨3, false⟩] 1 (by decide)).2.1 0
     (by decide),
   (C5_window_extraction [⟨1, false⟩, ⟨2, true⟩, ⟨3, false⟩] 1 (by decide)).2.2.1,
   (C5_window_extraction [⟨1, false⟩, ⟨2, true⟩, ⟨3, false⟩] 1 (by decide)).2.2.2.1 0
     (by decide)⟩

/-- The log2 outcome stored for a processed row follows the branch
structure applied to the aligned index list and the two aligned sums. -/
theorem binDirectionRow_log2 (row : List MCell) (rowNo maxl : ℕ) (r : DirResult)
    (h : binDirectionRow row rowNo maxl = some r) :
    r.log2 = log2Branch (alignedIdx row rowNo maxl)
      (upSumOf row rowNo maxl) (downSumOf row rowNo maxl) := by
  unfold binDirectionRow at h
  by_cases hc : maCount row = 0
  · simp [hc] at h
  · rw [if_neg hc] at h
    simp only [Option.some.injEq] at h
    subst h
    rfl

/-- Claim C2: for a processed row (values nonnegative, as probabilities
are) the stored log2 outcome is NaN exactly when both aligned sums are
zero or there is no aligned position; plus infinity exactly when the
aligned down-sum is zero and the up-sum positive; minus infinity exactly
when the up-sum is zero and the down-sum positive; and in the remaining
case it is the finite base-2 logarithm of the positive ratio
upSum / downSum. -/
theorem C2_log2_cases (row : List MCell) (rowNo maxl : ℕ) (r : DirResult)
    (hnn : ∀ c ∈ row, 0 ≤ c.val)
    (h : binDirectionRow row rowNo maxl = some r) :
    (r.log2 = Log2Val.nan ↔
      (upSumOf row rowNo maxl = 0 ∧ downSumOf row rowNo maxl = 0) ∨
      alignedIdx row rowNo maxl = []) ∧
    (r.log2 = Log2Val.posInf ↔
      downSumOf row rowNo maxl = 0 ∧ 0 < upSumOf row rowNo maxl) ∧
    (r.log2 = Log2Val.negInf ↔
      upSumOf row rowNo maxl = 0 ∧ 0 < downSumOf row rowNo maxl) ∧
    (0 < upSumOf row rowNo maxl → 0 < downSumOf row rowNo maxl →
      r.log2 = Log2Val.finite (upSumOf row rowNo maxl / downSumOf row rowNo maxl) ∧
      0 < upSumOf row rowNo maxl / downSumOf row rowNo maxl ∧
      alignedIdx row rowNo maxl ≠ []) := by
  have hup : 0 ≤ upSumOf row rowNo maxl :=
    sumAt_nonneg _ _ (fun c hc => hnn c (upWin_subset row rowNo c hc))
  have hdown : 0 ≤ downSumOf row rowNo maxl :=
    sumAt_nonneg _ _ (fun c hc => hnn c (downWin_subset row rowNo c hc))
  have hl := binDirectionRow_log2 row rowNo maxl r h
  by_cases hidx : alignedIdx row rowNo maxl = []
  · have hu0 : upSumOf row rowNo maxl = 0 := by
      simp [upSumOf, hidx, sumAt]
    have hd0 : downSumOf row rowNo maxl = 0 := by
      simp [downSumOf, hidx, sumAt]
    rw [hl, hidx, hu0, hd0]
    simp [log2Branch]
  · have hlen : 0 < (alignedIdx row rowNo maxl).length :=
      List.length_pos.mpr hidx
    rw [hl]
    unfold log2Branch
    rw [if_pos hlen]
    by_cases hu : upSumOf row rowNo maxl = 0
    · rw [if_pos hu]
      by_cases hd : downSumOf row rowNo maxl = 0
      · rw [if_pos hd]
        simp [hu, hd, hidx]
      · rw [if_neg hd]
        have hdpos : 0 < downSumOf row rowNo maxl :=
          lt_of_le_of_ne hdown (Ne.symm hd)
        simp [hu, hd, hidx, hdpos]
    · rw [if_neg hu]
      have hupos : 0 < upSumOf row rowNo maxl :=
        lt_of_le_of_ne hup (Ne.symm hu)
      by_cases hd : downSumOf row rowNo maxl = 0
      · rw [if_pos hd]
        simp [hu, hd, hidx, hupos]
      · rw [if_neg hd]
        have hdpos : 0 < downSumOf row rowNo maxl :=
          lt_of_le_of_ne hdown (Ne.symm hd)
        have hq : 0 < upSumOf row rowNo maxl / downSumOf row rowNo maxl :=
          div_pos hupos hdpos
        simp [hu, hd, hidx, hupos, hdpos, hq]

/-- Witness for C2 on the concrete row [1, 1, 0] (all unmasked) at index
1 with bound 10: the aligned up-sum is 1, the down-sum is 0, and the
stored outcome is plus infinity. -/
theorem C2_log2_cases_witness :
    DirResult.log2 ⟨1, -1, 1, 0, Log2Val.posInf⟩ = Log2Val.posInf ↔
      downSumOf [⟨1, false⟩, ⟨1, false⟩, ⟨0, false⟩] 1 10 = 0 ∧
      0 < upSumOf [⟨1, false⟩, ⟨1, false⟩, ⟨0, false⟩] 1 10 :=
  (C2_log2_cases [⟨1, false⟩, ⟨1, false⟩, ⟨0, false⟩] 1 10 ⟨1, -1, 1, 0, Log2Val.posInf⟩
    (by intro c hc; simp only [List.mem_cons, List.not_mem_nil, or_false] at hc
        rcases hc with rfl | rfl | rfl <;> norm_num)
    (by norm_num [binDirectionRow, maCount, maSum, upWin, downWin, upDown,
        unmaskedPair, maskAt, sumAt, log2Branch, mdef, List.range_succ])).2.1

/-- Claim C10: for a row with at least one unmasked cell and a positive
sum of unmasked probability weights, binDistance stores the
probability-weighted mean distance cast through np.uint32: a 32-bit
unsigned integer, the mean truncated toward zero (its fractional part
discarded, not rounded to nearest) and reduced modulo 2^32 rather than
rejected when it reaches 2^32. -/
theorem C10_weighted_mean_uint32 (distRow probRow : List MCell)
    (hc : maCount distRow ≠ 0)
    (hnd : ∀ c ∈ distRow, 0 ≤ c.val) (hnp : ∀ c ∈ probRow, 0 ≤ c.val)
    (hw : 0 < maWeightSum distRow probRow) :
    0 ≤ maAverage distRow probRow ∧
    binDistanceRow distRow probRow = some (npUint32 (maAverage distRow probRow)) ∧
    (npUint32 (maAverage distRow probRow) : ℤ) =
      ⌊maAverage distRow probRow⌋ % 2 ^ 32 ∧
    npUint32 (maAverage distRow probRow) < 2 ^ 32 ∧
    (maAverage distRow probRow < 2 ^ 32 →
      (npUint32 (maAverage distRow probRow) : ℚ) ≤ maAverage distRow probRow ∧
      maAverage distRow probRow < (npUint32 (maAverage distRow probRow) : ℚ) + 1) := by
  have hnum : 0 ≤ maWeighted distRow probRow := by
    unfold maWeighted
    apply List.sum_nonneg
    intro x hx
    simp only [List.mem_map] at hx
    obtain ⟨p, hp, rfl⟩ := hx
    have hpm := List.mem_of_mem_filter hp
    have hmem := List.of_mem_zip hpm
    exact mul_nonneg (hnd _ hmem.1) (hnp _ hmem.2)
  have hmu : 0 ≤ maAverage distRow probRow := by
    unfold maAverage
    exact div_nonneg hnum hw.le
  have h0 : (0:ℤ) ≤ ⌊maAverage distRow probRow⌋ := Int.floor_nonneg.mpr hmu
  refine ⟨hmu, ?_, ?_, ?_, ?_⟩
  · unfold binDistanceRow
    rw [if_neg hc]
  · unfold npUint32
    rw [Int.toNat_of_nonneg (Int.emod_nonneg _ (by norm_num))]
  · unfold npUint32
    have h1 : ⌊maAverage distRow probRow⌋ % 2 ^ 32 < 2 ^ 32 :=
      Int.emod_lt_of_pos _ (by norm_num)
    have h2 : (0:ℤ) ≤ ⌊maAverage distRow probRow⌋ % 2 ^ 32 :=
      Int.emod_nonneg _ (by norm_num)
    omega
  · intro hb
    have hlt : ⌊maAverage distRow probRow⌋ < 2 ^ 32 := by
      apply Int.floor_lt.mpr
      exact_mod_cast hb
    have hmod : ⌊maAverage distRow probRow⌋ % 2 ^ 32 = ⌊maAverage distRow probRow⌋ :=
      Int.emod_eq_of_lt h0 hlt
    have hcast : ((npUint32 (maAverage distRow probRow) : ℚ)) =
        ((⌊maAverage distRow probRow⌋ : ℤ) : ℚ) := by
      unfold npUint32
      rw [hmod]
      exact_mod_cast congrArg (fun z : ℤ => (z : ℚ)) (Int.toNat_of_nonneg h0)
    rw [hcast]
    exact ⟨Int.floor_le _, Int.lt_floor_add_one _⟩

/-- Witness for C10 on the one-cell row with distance 7/2 and weight 1:
the weighted mean is 7/2 and the stored value is the truncation 3. -/
theorem C10_weighted_mean_uint32_witness :
    binDistanceRow [⟨7/2, false⟩] [⟨1, false⟩] =
      some (npUint32 (maAverage [⟨7/2, false⟩] [⟨1, false⟩])) ∧
    (npUint32 (maAverage [⟨7/2, false⟩] [⟨1, false⟩]) : ℚ) ≤
      maAverage [⟨7/2, false⟩] [⟨1, false⟩] ∧
    maAverage [⟨7/2, false⟩] [⟨1, false⟩] <
      (npUint32 (maAverage [⟨7/2, false⟩] [⟨1, false⟩]) : ℚ) + 1 :=
  ⟨(C10_weighted_mean_uint32 [⟨7/2, false⟩] [⟨1, false⟩] (by decide)
      (by intro c hc; simp only [List.mem_cons, List.not_mem_nil, or_false] at hc
          subst hc; norm_num)
      (by intro c hc; simp only [List.mem_cons, List.not_mem_nil, or_false] at hc
          subst hc; norm_num)
      (by norm_num [maWeightSum, validPair])).2.1,
   ((C10_weighted_mean_uint32 [⟨7/2, false⟩] [⟨1, false⟩] (by decide)
      (by intro c hc; simp only [List.mem_cons, List.not_mem_nil, or_false] at hc
          subst hc; norm_num)
      (by intro c hc; simp only [List.mem_cons, List.not_mem_nil, or_false] at hc
          subst hc; norm_num)
      (by norm_num [maWeightSum, validPair])).2.2.2.2
      (by norm_num [maAverage, maWeighted, maWeightSum, validPair])).1,
   ((C10_weighted_mean_uint32 [⟨7/2, false⟩] [⟨1, false⟩] (by decide)
      (by intro c hc; simp only [List.mem_cons, List.not_mem_nil, or_false] at hc
          subst hc; norm_num)
      (by intro c hc; simp only [List.mem_cons, List.not_mem_nil, or_false] at hc
          subst hc; norm_num)
      (by norm_num [maWeightSum, validPair])).2.2.2.2
      (by norm_num [maAverage, maWeighted, maWeightSum, validPair])).2⟩

/-- Two rows with the same mask pattern keep the same number of cells
after removing the masked ones. -/
theorem filter_length_eq_of_mask_eq (r s : List MCell)
    (h : r.map MCell.mask = s.map MCell.mask) :
    (r.filter (fun c => !c.mask)).length = (s.filter (fun c => !c.mask)).length := by
  induction r generalizing s with
  | nil =>
    have hs : s = [] := by
      cases s
      · rfl
      · simp at h
    subst hs
    rfl
  | cons a r ih =>
    cases s with
    | nil => simp at h
    | cons b s =>
      simp only [List.map_cons, List.cons.injEq] at h
      obtain ⟨h1, h2⟩ := h
      by_cases hm : a.mask
      · have hb : b.mask = true := by rw [← h1]; exact hm
        simp [List.filter_cons, hm, hb, ih s h2]
      · have hb : b.mask = false := by rw [← h1]; simpa using hm
        simp only [Bool.not_eq_true] at hm
        simp [List.filter_cons, hm, hb, ih s h2]

/-- Zipping the unmasked values of two equally masked rows equals
collecting the value pairs of the unmasked positions of the zipped row. -/
theorem zip_compressed_rows (r s : List MCell)
    (h : r.map MCell.mask = s.map MCell.mask) :
    ((r.filter (fun c => !c.mask)).map MCell.val).zip
      ((s.filter (fun c => !c.mask)).map MCell.val) =
    ((r.zip s).filter (fun q => !q.1.mask)).map (fun q => (q.1.val, q.2.val)) := by
  induction r generalizing s with
  | nil =>
    have hs : s = [] := by
      cases s
      · rfl
      · simp at h
    subst hs
    rfl
  | cons a r ih =>
    cases s with
    | nil => simp at h
    | cons b s =>
      simp only [List.map_cons, List.cons.injEq] at h
      obtain ⟨h1, h2⟩ := h
      by_cases hm : a.mask
      · have hb : b.mask = true := by rw [← h1]; exact hm
        simp [List.filter_cons, List.zip_cons_cons, hm, hb, ih s h2]
      · have hb : b.mask = false := by rw [← h1]; simpa using hm
        simp only [Bool.not_eq_true] at hm
        simp [List.filter_cons, List.zip_cons_cons, hm, hb, ih s h2]

/-- With equal masks, combinedDistance is exactly the row-major
collection of (distance, probability) value pairs over the unmasked
positions. -/
theorem combinedDistance_eq_profile (distM probM : List (List MCell))
    (h : masksEq distM probM) :
    combinedDistance distM probM = distProfilePairs distM probM := by
  induction distM generalizing probM with
  | nil =>
    have hp : probM = [] := by
      unfold masksEq at h
      cases probM
      · rfl
      · simp at h
    subst hp
    rfl
  | cons r rs ih =>
    cases probM with
    | nil =>
      unfold masksEq at h
      simp at h
    | cons s ss =>
      unfold masksEq at h
      simp only [List.map_cons, List.cons.injEq] at h
      obtain ⟨h1, h2⟩ := h
      have hlen : ((r.filter (fun c => !c.mask)).map MCell.val).length =
          ((s.filter (fun c => !c.mask)).map MCell.val).length := by
        rw [List.length_map, List.length_map]
        exact filter_length_eq_of_mask_eq r s h1
      unfold combinedDistance compress distProfilePairs
      simp only [List.flatten_cons, List.filter_append, List.map_append,
        List.zip_cons_cons, List.map_cons]
      rw [List.zip_append hlen]
      congr 1
      · exact zip_compressed_rows r s h1
      · exact ih ss h2

/-- With equal masks, the profile has one pair per false mask entry. -/
theorem combinedDistance_length_eq (distM probM : List (List MCell))
    (h : masksEq distM probM) :
    (combinedDistance distM probM).length = countUnmasked distM := by
  have hflat : probM.flatten.map MCell.mask = distM.flatten.map MCell.mask := by
    rw [List.map_flatten, List.map_flatten]
    unfold masksEq at h
    rw [h]
  unfold combinedDistance compress countUnmasked
  rw [List.length_zip, List.length_map, List.length_map,
    filter_length_eq_of_mask_eq _ _ hflat]
  exact Nat.min_self _

/-- Every pair of the profile comes from an unmasked matrix position,
with the distance and the probability read at that same position. -/
theorem distProfilePairs_mem (distM probM : List (List MCell)) :
    ∀ p ∈ distProfilePairs distM probM, ∃ i j,
      i < distM.length ∧ j < (distM.getD i []).length ∧
      maskAt2 distM i j = false ∧
      p.1 = valAt distM i j ∧ p.2 = valAt probM i j := by
  induction distM generalizing probM with
  | nil =>
    intro p hp
    simp [distProfilePairs] at hp
  | cons r rs ih =>
    cases probM with
    | nil =>
      intro p hp
      simp [distProfilePairs] at hp
    | cons s ss =>
      intro p hp
      unfold distProfilePairs at hp
      simp only [List.zip_cons_cons, List.map_cons, List.flatten_cons,
        List.mem_append] at hp
      rcases hp with hp | hp
      · simp only [List.mem_map] at hp
        obtain ⟨q, hq, rfl⟩ := hp
        have hqf := List.of_mem_filter hq
        have hqm := List.mem_of_mem_filter hq
        rw [List.mem_iff_getElem] at hqm
        obtain ⟨j, hj, hqe⟩ := hqm
        have hjr : j < r.length := by
          rw [List.length_zip] at hj
          omega
        have hjs : j < s.length := by
          rw [List.length_zip] at hj
          omega
        rw [List.getElem_zip] at hqe
        subst hqe
        simp only at hqf
        refine ⟨0, j, by simp, ?_, ?_, ?_, ?_⟩
        · simpa using hjr
        · unfold maskAt2
          rw [List.getD_cons_zero, List.getD_eq_getElem?_getD,
            List.getElem?_eq_getElem hjr]
          simpa using hqf
        · unfold valAt
          rw [List.getD_cons_zero, List.getD_eq_getElem?_getD,
            List.getElem?_eq_getElem hjr]
          rfl
        · unfold valAt
          rw [List.getD_cons_zero, List.getD_eq_getElem?_getD,
            List.getElem?_eq_getElem hjs]
          rfl
      · obtain ⟨i, j, hi, hj, hmk, hv1, hv2⟩ := ih ss p hp
        refine ⟨i + 1, j, by simpa using hi, ?_, ?_, ?_, ?_⟩
        · rwa [List.getD_cons_succ]
        · unfold maskAt2 at hmk ⊢
          rwa [List.getD_cons_succ]
        · unfold valAt at hv1 ⊢
          rwa [List.getD_cons_succ]
        · unfold valAt at hv2 ⊢
          rwa [List.getD_cons_succ]

/-- Claim C9: with the shared exclusion mask, the dataset profile has
length equal to the number of false entries of the mask; it equals the
row-major collection over both triangles without deduplication; and each
returned pair reads the distance and the probability at one unmasked
matrix position. -/
theorem C9_distance_profile (distM probM : List (List MCell))
    (h : masksEq distM probM) :
    (combinedDistance distM probM).length = countUnmasked distM ∧
    combinedDistance distM probM = distProfilePairs distM probM ∧
    (∀ p ∈ combinedDistance distM probM, ∃ i j,
      i < distM.length ∧ j < (distM.getD i []).length ∧
      maskAt2 distM i j = false ∧
      p.1 = valAt distM i j ∧ p.2 = valAt probM i j) := by
  refine ⟨combinedDistance_length_eq distM probM h,
    combinedDistance_eq_profile distM probM h, ?_⟩
  rw [combinedDistance_eq_profile distM probM h]
  exact distProfilePairs_mem distM probM

/-- Witness for C9 on concrete 2 by 2 matrices sharing one mask with two
unmasked cells (the off-diagonal): the profile has length 2 and equals
the collected pairs. -/
theorem C9_distance_profile_witness :
    (combinedDistance
        [[⟨0, true⟩, ⟨5, false⟩], [⟨5, false⟩, ⟨0, true⟩]]
        [[⟨1, true⟩, ⟨2, false⟩], [⟨3, false⟩, ⟨4, true⟩]]).length =
      countUnmasked [[⟨0, true⟩, ⟨5, false⟩], [⟨5, false⟩, ⟨0, true⟩]] ∧
    combinedDistance
        [[⟨0, true⟩, ⟨5, false⟩], [⟨5, false⟩, ⟨0, true⟩]]
        [[⟨1, true⟩, ⟨2, false⟩], [⟨3, false⟩, ⟨4, true⟩]] =
      distProfilePairs
        [[⟨0, true⟩, ⟨5, false⟩], [⟨5, false⟩, ⟨0, true⟩]]
        [[⟨1, true⟩, ⟨2, false⟩], [⟨3, false⟩, ⟨4, true⟩]] :=
  ⟨(C9_distance_profile
      [[⟨0, true⟩, ⟨5, false⟩], [⟨5, false⟩, ⟨0, true⟩]]
      [[⟨1, true⟩, ⟨2, false⟩], [⟨3, false⟩, ⟨4, true⟩]] (by decide)).1,
   (C9_distance_profile
      [[⟨0, true⟩, ⟨5, false⟩], [⟨5, false⟩, ⟨0, true⟩]]
      [[⟨1, true⟩, ⟨2, false⟩], [⟨3, false⟩, ⟨4, true⟩]] (by decide)).2.1⟩

end AnalyseInteraction
